import Mathlib

/-!
Verification of the STM8S GPS clock firmware core (`src/main.c`) against its
natural-language specification.  The C functions are shallowly embedded as
executable Lean definitions: 8-bit / 16-bit machine arithmetic is modelled on
`Nat` with explicit `% 256` / `% 65536`, arrays as `List Nat`, and the
interrupt-driven control flow as an explicit small-step interleaving model.
-/

namespace Clock

/-! ## UBX checksum (src/main.c, `ubx_update_checksum`, lines 63-67)

`checksum[0] += value; checksum[1] += checksum[0];` on `uint8_t` cells. -/

def ubx_update_checksum (ck : Nat × Nat) (value : Nat) : Nat × Nat :=
  let a := (ck.1 + value) % 256
  let b := (ck.2 + a) % 256
  (a, b)

/-- `ubx_update_checksum_multi` (src/main.c lines 69-74): left fold of the
per-byte update over a byte list. -/
def ubx_update_checksum_multi (ck : Nat × Nat) (data : List Nat) : Nat × Nat :=
  data.foldl ubx_update_checksum ck

/-! ## UBX frame encoder (src/main.c, `ubx_send`, lines 76-100)

The C function builds a 6-byte header `B5 62 class id len_lo len_hi`, folds the
checksum over the header minus its two sync bytes and then over the payload,
and transmits header ++ payload ++ checksum over the blocking UART.  `length`
is a `uint16_t`; the low/high bytes are `length & 0xFF` and `length >> 8`.
We return the exact byte sequence handed to `uart_send_blocking`. -/

def ubx_header (msgClass msgId : Nat) (len : Nat) : List Nat :=
  [0xB5, 0x62, msgClass, msgId, len % 256, (len / 256) % 256]

def ubx_send_bytes (msgClass msgId : Nat) (data : List Nat) : List Nat :=
  let header := ubx_header msgClass msgId data.length
  let ck := ubx_update_checksum_multi
    (ubx_update_checksum_multi (0, 0) (header.drop 2)) data
  header ++ data ++ [ck.1, ck.2]

/-! ## Startup time-pulse configuration payload (src/main.c, `gps_init`, lines 105-122)

`cfg_tp5_data` is built from the `UBX_VALUE_*` macros of `ubxgps.h`, which is
not part of the sources we were given. -/

/-- Modelled from the spec: `ubxgps.h` (providing `UBX_VALUE_U8`) is missing
from the sources; per the spec's data model all multi-byte protocol values are
little-endian and the type suffix gives the width, so `UBX_VALUE_U8 x` is the
single byte `x`. -/
def ubx_value_u8 (x : Nat) : List Nat := [x % 256]

/-- Modelled from the spec: 16-bit little-endian expansion (`ubxgps.h` is
missing from the sources; the spec fixes little-endian byte order). -/
def ubx_value_u16 (x : Nat) : List Nat := [x % 256, (x / 256) % 256]

/-- Modelled from the spec: 32-bit little-endian expansion (`ubxgps.h` is
missing from the sources; the spec fixes little-endian byte order). -/
def ubx_value_u32 (x : Nat) : List Nat :=
  [x % 256, (x / 256) % 256, (x / 65536) % 256, (x / 16777216) % 256]

/-- Modelled from the spec: signed 16-bit little-endian (two's complement). -/
def ubx_value_s16 (x : Int) : List Nat := ubx_value_u16 ((x % 65536).toNat)

/-- Modelled from the spec: signed 32-bit little-endian (two's complement). -/
def ubx_value_s32 (x : Int) : List Nat := ubx_value_u32 ((x % 4294967296).toNat)

/-- The 11-field `cfg_tp5_data` payload of `gps_init` (src/main.c lines 107-119). -/
def cfg_tp5_data : List Nat :=
  ubx_value_u8 0 ++        -- Timepulse selection
  ubx_value_u8 0 ++        -- Reserved 0
  ubx_value_u16 0 ++       -- Reserved 1
  ubx_value_s16 50 ++      -- Antenna cable delay (nS)
  ubx_value_s16 0 ++       -- RF group delay (nS)
  ubx_value_u32 0 ++       -- Frequency of time pulse in Hz
  ubx_value_u32 1 ++       -- Frequency of time pulse in Hz when locked
  ubx_value_u32 1000 ++    -- Length of time pulse in uS
  ubx_value_u32 10000 ++   -- Length of time pulse in uS when locked
  ubx_value_s32 0 ++       -- User configurable timepulse delay (nS)
  ubx_value_u32 0xFF       -- Flags

/-! ## MAX7219 segment-plane mapper (src/main.c lines 185-286)

`_segmentWiseData` is 8 `uint8_t` plane bytes, one per segment; bit `n` of
plane `k` says whether segment `k` of the physical digit at bit position `n`
is lit.  We model the plane array as a `List Nat` of 8 bytes. -/

def kNumSegments : Nat := 8

def kNumDigits : Nat := 6

/-- `digitMap` (src/main.c lines 209-216): a `uint8_t[8]` array with six
explicit initializers; the remaining two entries are zero-initialized. -/
def digitMap : List Nat := [0, 4, 3, 1, 5, 2, 0, 0]

/-- The per-segment loop of `max7219_set_digit` (src/main.c lines 225-234):
for each plane byte, set or clear the digit's bit according to the low bit of
`segments`, shifting `segments` right once per iteration.  `&= ~digitMask` on
a `uint8_t` is `&&& (255 ^^^ digitMask)`. -/
def set_digit_loop (digitMask : Nat) : Nat → List Nat → List Nat
  | _, [] => []
  | segments, p :: rest =>
    (if segments &&& 1 = 1 then p ||| digitMask else p &&& (255 ^^^ digitMask)) ::
      set_digit_loop digitMask (segments >>> 1) rest

/-- `max7219_set_digit` (src/main.c lines 206-235): map the 1-indexed logical
digit through `digitMap`, build the single-bit mask, and update all 8 plane
bytes. -/
def max7219_set_digit (digitRegister segments : Nat) (planes : List Nat) : List Nat :=
  set_digit_loop (1 <<< digitMap.getD (digitRegister - 1) 0) segments planes

/-- `bcdMap` (src/main.c lines 243-260). -/
def bcdMap : List Nat :=
  [0x3F, 0x06, 0x5B, 0x4F, 0x66, 0x6D, 0x7D, 0x07, 0x7F, 0x6F,
   0x40, 0x79, 0x76, 0x38, 0x73, 0x0]

/-- The segment pattern computed by `max7219_set_digit_bcd` (src/main.c lines
262-266): look up the low nibble in `bcdMap` and OR in the decimal point when
bit `0x80` of the input is set. -/
def bcd_segments (value : Nat) : Nat :=
  bcdMap.getD (value &&& 0xF) 0 ||| (value &&& 0x80)

/-- `max7219_set_digit_bcd` (src/main.c lines 241-269). -/
def max7219_set_digit_bcd (digitRegister value : Nat) (planes : List Nat) : List Nat :=
  max7219_set_digit digitRegister (bcd_segments value) planes

/-- The standard 7-segment patterns for the digits 0-9 as listed by the
specification. -/
def stdSevenSegment : List Nat :=
  [0x3F, 0x06, 0x5B, 0x4F, 0x66, 0x6D, 0x7D, 0x07, 0x7F, 0x6F]

/-! ## Time display (src/main.c lines 288-336) -/

/-- Modelled from the spec: `DateTime` is declared in `nmea.h`, which is not
among the sources.  The spec fixes the layout the display layer relies on:
"six small unsigned fields" read "as a flat byte array addressed by position",
with "hour, minute, second as adjacent fields" forming the first three bytes,
followed by day, month and the low byte of the year. -/
structure DateTime where
  hour : Nat
  minute : Nat
  second : Nat
  day : Nat
  month : Nat
  year : Nat
deriving DecidableEq, Repr

/-- The flat byte view `(uint8_t*) now` used by `display_update`
(src/main.c line 321). -/
def DateTime.bytes (t : DateTime) : List Nat :=
  [t.hour, t.minute, t.second, t.day, t.month, t.year]

/-- `_timezoneOffset` (src/main.c line 37). -/
def timezoneOffset : Int := 13

/-- `apply_timezone_offset` (src/main.c lines 291-304): add the offset to the
hour in signed 8-bit arithmetic and wrap once into `[0, 24)`.  Only the hour
field is written back. -/
def apply_timezone_offset (now : DateTime) : DateTime :=
  let hour : Int := (now.hour : Int) + timezoneOffset
  let hour' := if hour > 23 then hour - 24 else if hour < 0 then hour + 24 else hour
  { now with hour := hour'.toNat }

/-- The tens/ones split by repeated subtraction inside `display_update`
(src/main.c lines 321-327). -/
def tens_ones_loop (ones tens : Nat) : Nat × Nat :=
  if h : 10 ≤ ones then tens_ones_loop (ones - 10) (tens + 1) else (tens, ones)
termination_by ones
decreasing_by omega

/-- The two digits `display_update` derives from one time field. -/
def field_digits (v : Nat) : List Nat :=
  [(tens_ones_loop v 0).1, (tens_ones_loop v 0).2]

/-- The six digit values `display_update` (src/main.c lines 309-336) sends to
`max7219_set_digit_bcd`, in display order: it walks the first three bytes of
the flat `DateTime` view and splits each into tens and ones. -/
def display_update_digits (now : DateTime) : List Nat :=
  field_digits (now.bytes.getD 0 0) ++ field_digits (now.bytes.getD 1 0) ++
    field_digits (now.bytes.getD 2 0)

/-! ## Brightness controller (src/main.c lines 377-410)

`display_adjust_brightness` keeps a 16-slot `uint16_t` ring of ADC readings, a
`uint16_t` running total and a write index.  All 16-bit arithmetic is modelled
with an explicit `% 65536`. -/

structure BrightState where
  buf : List Nat
  wi : Nat
  total : Nat
deriving DecidableEq, Repr

/-- The all-zero initial state of the static locals of
`display_adjust_brightness` (src/main.c lines 392-394). -/
def initBright : BrightState := ⟨List.replicate 16 0, 0, 0⟩

/-- One run of `display_adjust_brightness` (src/main.c lines 396-404) on a
fresh ADC reading: subtract the slot about to be overwritten from the running
total, add the reading, store it, and advance the write index modulo 16. -/
def brightStep (s : BrightState) (reading : Nat) : BrightState :=
  let t1 := (s.total + 65536 - s.buf.getD s.wi 0) % 65536
  let t2 := (t1 + reading) % 65536
  ⟨s.buf.set s.wi reading, (s.wi + 1) % 16, t2⟩

/-- The single `max7219_cmd(0x0A, average / 64)` issued at the end of each
`display_adjust_brightness` run (src/main.c lines 406-409). -/
def brightCmd (s : BrightState) (reading : Nat) : Nat × Nat :=
  (0x0A, ((brightStep s reading).total / 16) / 64)

/-- The brightness state after integrating a list of readings in arrival
order, starting from the all-zero state. -/
def brightRun (rs : List Nat) : BrightState :=
  rs.foldl brightStep initBright

/-- The eviction-window view: the 16 values stored in the ring after `rs` has
been processed are the last 16 entries of `rs` padded on the left with the 16
initial zeros. -/
def brightWindow (rs : List Nat) : List Nat :=
  (List.replicate 16 0 ++ rs).drop rs.length

/-! ## Byte queue (`circbuf` of src/circbuf.h, used at src/main.c lines 557-572)

Modelled from the spec: `circbuf.h` / `circbuf.c` are not among the sources.
Per the spec the queue is a fixed-capacity circular buffer with a write index
and a read index that each advance modulo the capacity; `append` stores the
byte at the write index and then advances it, `pop` reads the byte at the read
index and then advances it, and the emptiness predicate is true iff the write
index equals the read index. -/

structure CircBuf where
  buf : List Nat
  readIdx : Nat
  writeIdx : Nat
deriving DecidableEq, Repr

def CircBuf.init (cap : Nat) : CircBuf := ⟨List.replicate cap 0, 0, 0⟩

/-- Modelled from the spec: `circbuf_append`, called only from the receive
interrupt (src/main.c lines 567-572). -/
def circbuf_append (q : CircBuf) (byte : Nat) : CircBuf :=
  ⟨q.buf.set q.writeIdx byte, q.readIdx, (q.writeIdx + 1) % q.buf.length⟩

/-- Modelled from the spec: `circbuf_is_empty`. -/
def circbuf_is_empty (q : CircBuf) : Bool :=
  q.writeIdx == q.readIdx

/-- Modelled from the spec: `circbuf_pop`, called only from the main
context. -/
def circbuf_pop (q : CircBuf) : Nat × CircBuf :=
  (q.buf.getD q.readIdx 0, ⟨q.buf, (q.readIdx + 1) % q.buf.length, q.writeIdx⟩)

/-- `uart_read_byte` (src/main.c lines 559-565) spins while the queue is
empty and only then pops.  One blocking attempt is modelled as: no result
while the queue is empty, otherwise the popped byte and successor state. -/
def uart_read_byte (q : CircBuf) : Option (Nat × CircBuf) :=
  if circbuf_is_empty q then none else some (circbuf_pop q)

/-- One queue operation: `none` is a pop from the main context, `some b` is an
append of byte `b` from the receive interrupt (src/main.c lines 567-572). -/
def QueueOp := Option Nat

/-- Run a sequence of interleaved appends and pops, collecting the popped
bytes in order. -/
def runQueue (q : CircBuf) (out : List Nat) : List (Option Nat) → CircBuf × List Nat
  | [] => (q, out)
  | some b :: ops => runQueue (circbuf_append q b) out ops
  | none :: ops =>
    let r := circbuf_pop q
    runQueue r.2 (out ++ [r.1]) ops

/-- The appended bytes of an operation sequence, in order. -/
def appends (ops : List (Option Nat)) : List Nat :=
  ops.filterMap id

/-- The number of pops in an operation sequence. -/
def pops (ops : List (Option Nat)) : Nat :=
  (ops.filter (fun o => o.isNone)).length

/-- Well-formedness of an interleaving per the claim: every prefix has at
least as many appends as pops (the consumer blocks on an empty queue, so a pop
only happens once a byte is available), and the total number of appends `N`
satisfies `N ≤ capacity`. -/
def wfOps (cap : Nat) (ops : List (Option Nat)) : Prop :=
  (appends ops).length ≤ cap ∧
    ∀ n, n ≤ ops.length → pops (ops.take n) ≤ (appends (ops.take n)).length

/-! ## Interrupt interleaving model (src/main.c lines 309-336, 348-363, 582-588)

The main context runs a straight-line sequence of actions; the ADC
conversion-complete interrupt may fire any number of times at any point where
interrupts are enabled, and each firing runs `display_adjust_brightness`,
which issues exactly one command on the shared display bus.  `disableInterrupts`
/ `enableInterrupts` gate preemption. -/

/-- A main-context action: interrupt gating, or one `max7219_cmd` on the
shared bus. -/
inductive MAct where
  | disableInts : MAct
  | enableInts : MAct
  | cmd (addr data : Nat) : MAct
deriving DecidableEq, Repr

/-- A device command as observed on the display bus, tagged with the context
that issued it. -/
inductive Ev where
  | main (addr data : Nat) : Ev
  | irq (addr : Nat) : Ev
deriving DecidableEq, Repr

def Ev.isMain : Ev → Bool
  | .main _ _ => true
  | _ => false

/-- Interrupt-enable flag after a main action. -/
def nextEn : MAct → Bool → Bool
  | .disableInts, _ => false
  | .enableInts, _ => true
  | .cmd _ _, en => en

/-- Bus events emitted directly by one main action. -/
def evOf : MAct → List Ev
  | .cmd a d => [.main a d]
  | _ => []

/-- Run a main-context action list under an interrupt schedule: before each
main action the ADC interrupt fires `k` more times (the head of the schedule)
if and only if interrupts are currently enabled, each firing issuing one
intensity command (`max7219_cmd(0x0A, …)`, src/main.c line 409) on the bus. -/
def runActs : List MAct → List Nat → Bool → List Ev
  | [], _, _ => []
  | a :: rest, ks, en =>
    (if en then List.replicate (ks.headD 0) (Ev.irq 0x0A) else []) ++
      evOf a ++ runActs rest ks.tail (nextEn a en)

/-- The interrupt-enable flag after the whole action list has run. -/
def finalEn (acts : List MAct) (en : Bool) : Bool :=
  acts.foldl (fun e a => nextEn a e) en

/-- Scans a bus trace for an interrupt-context command that is followed by a
further main-context command. -/
def irqThenMain : List Ev → Bool
  | [] => false
  | Ev.irq _ :: rest => rest.any Ev.isMain || irqThenMain rest
  | Ev.main _ _ :: rest => irqThenMain rest

/-- Whether an interrupt-context bus command occurs strictly between two
main-context bus commands — the interleaving the critical section must
exclude. -/
def hasIrqBetweenMains (t : List Ev) : Bool :=
  irqThenMain (t.dropWhile (fun e => !e.isMain))

/-- The 8 plane-register commands of `max7219_write_digits` (src/main.c lines
194-200), for a given plane state. -/
def writeDigitsActs (planes : List Nat) : List MAct :=
  (List.range kNumSegments).map (fun i => MAct.cmd (i + 1) (planes.getD i 0))

/-- The bus-relevant action sequence of `display_update` (src/main.c lines
309-336): disable interrupts, compose the digits (no bus traffic), flush all 8
planes, re-enable interrupts. -/
def displayUpdateActs (planes : List Nat) : List MAct :=
  MAct.disableInts :: (writeDigitsActs planes ++ [MAct.enableInts])

/-- The bus-relevant action sequence of `display_no_signal` (src/main.c lines
348-363): compose the rotating decimal point (no bus traffic) and flush all 8
planes.  Interrupts are never touched. -/
def displayNoSignalActs (planes : List Nat) : List MAct :=
  writeDigitsActs planes

lemma ubx_update_checksum_multi_append (ck : Nat × Nat) (l₁ l₂ : List Nat) :
    ubx_update_checksum_multi ck (l₁ ++ l₂) =
      ubx_update_checksum_multi (ubx_update_checksum_multi ck l₁) l₂ := by
  simp [ubx_update_checksum_multi, List.foldl_append]

/-- C4: the checksum fold starting from `(0,0)` is unchanged by the empty byte
sequence, maps a single byte `v < 256` to `(v, v)`, and is a deterministic pure
function of the byte sequence. -/
theorem checksum_unit_properties :
    ubx_update_checksum_multi (0, 0) [] = (0, 0) ∧
    (∀ v, v < 256 → ubx_update_checksum_multi (0, 0) [v] = (v, v)) ∧
    (∀ (ck : Nat × Nat) (l₁ l₂ : List Nat), l₁ = l₂ →
      ubx_update_checksum_multi ck l₁ = ubx_update_checksum_multi ck l₂) := by
  refine ⟨rfl, ?_, ?_⟩
  · intro v hv
    simp [ubx_update_checksum_multi, ubx_update_checksum, Nat.mod_eq_of_lt hv]
  · intro ck l₁ l₂ h
    rw [h]

/-- Witness for `checksum_unit_properties` at the concrete byte `200` and the
concrete list `[7, 9]`. -/
theorem checksum_unit_properties_witness :
    ubx_update_checksum_multi (0, 0) [200] = (200, 200) ∧
    ubx_update_checksum_multi (0, 0) [7, 9] = ubx_update_checksum_multi (0, 0) [7, 9] :=
  ⟨checksum_unit_properties.2.1 200 (by decide),
   checksum_unit_properties.2.2 (0, 0) [7, 9] [7, 9] rfl⟩

/-- C5: for every class byte, id byte and payload, the encoded frame is
`8 + L` bytes, starts with the sync bytes `B5 62`, carries `L` little-endian in
frame bytes 5–6 (0-indexed 4 and 5), and ends with the checksum fold over the
class, id, two length bytes and payload — the two sync bytes excluded. -/
theorem ubx_framing (msgClass msgId : Nat) (data : List Nat)
    (h : data.length < 65536) :
    (ubx_send_bytes msgClass msgId data).length = 8 + data.length ∧
    (ubx_send_bytes msgClass msgId data).take 2 = [0xB5, 0x62] ∧
    (ubx_send_bytes msgClass msgId data).getD 4 0 +
      256 * (ubx_send_bytes msgClass msgId data).getD 5 0 = data.length ∧
    (ubx_send_bytes msgClass msgId data).drop (6 + data.length) =
      [(ubx_update_checksum_multi (0, 0)
          ([msgClass, msgId, data.length % 256, (data.length / 256) % 256] ++ data)).1,
       (ubx_update_checksum_multi (0, 0)
          ([msgClass, msgId, data.length % 256, (data.length / 256) % 256] ++ data)).2] := by
  refine ⟨?_, ?_, ?_, ?_⟩
  · simp [ubx_send_bytes, ubx_header]
    omega
  · simp [ubx_send_bytes, ubx_header]
  · simp [ubx_send_bytes, ubx_header, List.getD]
    omega
  · have hsplit : ubx_send_bytes msgClass msgId data =
        (ubx_header msgClass msgId data.length ++ data) ++
          [(ubx_update_checksum_multi (0, 0)
             ([msgClass, msgId, data.length % 256, (data.length / 256) % 256] ++ data)).1,
           (ubx_update_checksum_multi (0, 0)
             ([msgClass, msgId, data.length % 256, (data.length / 256) % 256] ++ data)).2] := by
      simp [ubx_send_bytes, ubx_header, ← ubx_update_checksum_multi_append,
        List.append_assoc]
    rw [hsplit]
    have hlen : (ubx_header msgClass msgId data.length ++ data).length = 6 + data.length := by
      simp [ubx_header]
      omega
    rw [← hlen, List.drop_left]

/-- Witness for `ubx_framing` at class `6`, id `49`, payload `[1, 2, 3]`. -/
theorem ubx_framing_witness :
    (ubx_send_bytes 6 49 [1, 2, 3]).length = 8 + 3 ∧
    (ubx_send_bytes 6 49 [1, 2, 3]).take 2 = [0xB5, 0x62] ∧
    (ubx_send_bytes 6 49 [1, 2, 3]).getD 4 0 +
      256 * (ubx_send_bytes 6 49 [1, 2, 3]).getD 5 0 = 3 ∧
    (ubx_send_bytes 6 49 [1, 2, 3]).drop (6 + 3) =
      [(ubx_update_checksum_multi (0, 0) ([6, 49, 3 % 256, (3 / 256) % 256] ++ [1, 2, 3])).1,
       (ubx_update_checksum_multi (0, 0) ([6, 49, 3 % 256, (3 / 256) % 256] ++ [1, 2, 3])).2] :=
  ubx_framing 6 49 [1, 2, 3] (by decide)

/-- C2 counterexample: the startup time-pulse payload `cfg_tp5_data` is 32
bytes, not 28, and the transmitted frame is 40 bytes, not 36. -/
theorem cfg_tp5_sizes_ne_claimed :
    cfg_tp5_data.length ≠ 28 ∧ (ubx_send_bytes 0x06 0x31 cfg_tp5_data).length ≠ 36 := by
  decide

/-- C2 (amended): encoding the class `0x06` id `0x31` message with the 11-field
`cfg_tp5_data` payload gives a 32-byte payload, transmits exactly 40 bytes, and
its trailing checksum pair equals the two-accumulator fold replayed over the 36
non-sync bytes of the frame. -/
theorem cfg_tp5_frame_correct :
    cfg_tp5_data.length = 32 ∧
    (ubx_send_bytes 0x06 0x31 cfg_tp5_data).length = 40 ∧
    (ubx_send_bytes 0x06 0x31 cfg_tp5_data).drop 38 =
      [(ubx_update_checksum_multi (0, 0)
          (((ubx_send_bytes 0x06 0x31 cfg_tp5_data).drop 2).take 36)).1,
       (ubx_update_checksum_multi (0, 0)
          (((ubx_send_bytes 0x06 0x31 cfg_tp5_data).drop 2).take 36)).2] := by
  refine ⟨by decide, by decide, by decide⟩

lemma tens_ones_loop_eq (ones tens : Nat) :
    tens_ones_loop ones tens = (tens + ones / 10, ones % 10) := by
  induction ones using Nat.strong_induction_on generalizing tens with
  | _ ones ih =>
    rw [tens_ones_loop]
    by_cases h : 10 ≤ ones
    · rw [dif_pos h, ih (ones - 10) (by omega) (tens + 1)]
      refine Prod.ext ?_ ?_ <;> simp <;> omega
    · rw [dif_neg h]
      refine Prod.ext ?_ ?_ <;> simp <;> omega

/-- C8: for every 8-bit input value, the repeated-subtraction loop of
`display_update` terminates with exactly the quotient and remainder by 10. -/
theorem tens_ones_loop_is_divmod (v : Nat) (h : v < 256) :
    tens_ones_loop v 0 = (v / 10, v % 10) := by
  rw [tens_ones_loop_eq]
  simp

/-- Witness for `tens_ones_loop_is_divmod` at the concrete input `137`. -/
theorem tens_ones_loop_is_divmod_witness : tens_ones_loop 137 0 = (13, 7) :=
  tens_ones_loop_is_divmod 137 (by decide)

/-- C3: processing `{sec=45, min=30, hour=9}` with timezone offset `+13`
changes only the hour field, to `22` (no wraparound), and the display update
then derives the digit sequence tens/ones `2,2,3,0,4,5`. -/
theorem timezone_display_scenario :
    (apply_timezone_offset ⟨9, 30, 45, 0, 0, 0⟩).hour = 22 ∧
    (apply_timezone_offset ⟨9, 30, 45, 0, 0, 0⟩).minute = 30 ∧
    (apply_timezone_offset ⟨9, 30, 45, 0, 0, 0⟩).second = 45 ∧
    (apply_timezone_offset ⟨9, 30, 45, 0, 0, 0⟩).day = 0 ∧
    (apply_timezone_offset ⟨9, 30, 45, 0, 0, 0⟩).month = 0 ∧
    (apply_timezone_offset ⟨9, 30, 45, 0, 0, 0⟩).year = 0 ∧
    display_update_digits (apply_timezone_offset ⟨9, 30, 45, 0, 0, 0⟩) =
      [2, 2, 3, 0, 4, 5] := by
  have h : apply_timezone_offset ⟨9, 30, 45, 0, 0, 0⟩ =
      (⟨22, 30, 45, 0, 0, 0⟩ : DateTime) := by
    simp [apply_timezone_offset, timezoneOffset]
  rw [h]
  refine ⟨rfl, rfl, rfl, rfl, rfl, rfl, ?_⟩
  simp [display_update_digits, field_digits, DateTime.bytes, tens_ones_loop_eq]

lemma bcd_segments_small : ∀ v, v ≤ 9 → bcd_segments v = stdSevenSegment.getD v 0 := by
  decide

set_option maxRecDepth 8192 in
/-- C6: for inputs 0-9 the BCD mapper computes the standard 7-segment
patterns; for any byte with bit `0x80` set it ORs the decimal-point bit into
the pattern selected by the low nibble without altering the other segment
bits; and `max7219_set_digit_bcd` hands exactly that standard pattern to
`max7219_set_digit` for every digit. -/
theorem bcd_mapper_correct :
    (∀ v, v ≤ 9 → bcd_segments v = stdSevenSegment.getD v 0) ∧
    (∀ v, v < 256 → v &&& 0x80 = 0x80 →
      (∀ k, k < 7 → (bcd_segments v).testBit k = (bcdMap.getD (v &&& 0xF) 0).testBit k) ∧
        (bcd_segments v).testBit 7 = true) ∧
    (∀ i v planes, v ≤ 9 →
      max7219_set_digit_bcd i v planes =
        max7219_set_digit i (stdSevenSegment.getD v 0) planes) := by
  refine ⟨bcd_segments_small, by decide, ?_⟩
  intro i v planes hv
  rw [max7219_set_digit_bcd, bcd_segments_small v hv]

/-- Witness for `bcd_mapper_correct`: digit value `5`, decimal-point input
`0x85`, and a `set_digit_bcd` call on digit 1 with value 3 over the all-zero
plane state. -/
theorem bcd_mapper_correct_witness :
    bcd_segments 5 = 0x6D ∧
    ((∀ k, k < 7 → (bcd_segments 0x85).testBit k = (bcdMap.getD (0x85 &&& 0xF) 0).testBit k) ∧
      (bcd_segments 0x85).testBit 7 = true) ∧
    max7219_set_digit_bcd 1 3 [0, 0, 0, 0, 0, 0, 0, 0] =
      max7219_set_digit 1 0x4F [0, 0, 0, 0, 0, 0, 0, 0] :=
  ⟨bcd_mapper_correct.1 5 (by decide),
   bcd_mapper_correct.2.1 0x85 (by decide) (by decide),
   bcd_mapper_correct.2.2 1 3 [0, 0, 0, 0, 0, 0, 0, 0] (by decide)⟩

lemma testBit_255 (k : Nat) : Nat.testBit 255 k = decide (k < 8) := by
  have h := Nat.testBit_two_pow_sub_one 8 k
  norm_num at h
  exact h

lemma or_mask_testBit (p d e : Nat) (hne : d ≠ e) :
    (p ||| 1 <<< d).testBit e = p.testBit e := by
  simp [Nat.testBit_lor, Nat.shiftLeft_eq, Nat.testBit_two_pow, hne]

lemma and_inv_mask_testBit (p d e : Nat) (he : e < 8) (hne : d ≠ e) :
    (p &&& (255 ^^^ 1 <<< d)).testBit e = p.testBit e := by
  simp [Nat.testBit_land, Nat.testBit_xor, testBit_255, Nat.shiftLeft_eq,
    Nat.testBit_two_pow, he, hne]

lemma set_digit_loop_testBit (d e : Nat) (he : e < 8) (hne : d ≠ e)
    (segments : Nat) (planes : List Nat) (k : Nat) :
    ((set_digit_loop (1 <<< d) segments planes).getD k 0).testBit e =
      (planes.getD k 0).testBit e := by
  induction planes generalizing segments k with
  | nil => simp [set_digit_loop]
  | cons p rest ih =>
    cases k with
    | zero =>
      rw [set_digit_loop]
      by_cases hseg : segments &&& 1 = 1
      · rw [if_pos hseg]
        simpa using or_mask_testBit p d e hne
      · rw [if_neg hseg]
        simpa using and_inv_mask_testBit p d e he hne
    | succ k =>
      rw [set_digit_loop]
      simpa only [List.getD_cons_succ] using ih (segments >>> 1) k

lemma plane_op_comm (p d e : Nat) (hd : d < 8) (he : e < 8) (hne : d ≠ e)
    (c₁ c₂ : Bool) :
    (if c₁ = true then (if c₂ = true then p ||| 1 <<< e else p &&& (255 ^^^ 1 <<< e)) ||| 1 <<< d
      else (if c₂ = true then p ||| 1 <<< e else p &&& (255 ^^^ 1 <<< e)) &&& (255 ^^^ 1 <<< d)) =
    (if c₂ = true then (if c₁ = true then p ||| 1 <<< d else p &&& (255 ^^^ 1 <<< d)) ||| 1 <<< e
      else (if c₁ = true then p ||| 1 <<< d else p &&& (255 ^^^ 1 <<< d)) &&& (255 ^^^ 1 <<< e)) := by
  have hne' : e ≠ d := fun h => hne h.symm
  apply Nat.eq_of_testBit_eq
  intro k
  cases c₁ <;> cases c₂ <;>
    simp only [if_true, if_false, Bool.false_eq_true, Bool.true_eq_false, ite_true, ite_false,
      Nat.testBit_lor, Nat.testBit_land, Nat.testBit_xor, testBit_255, Nat.shiftLeft_eq,
      Nat.testBit_two_pow, one_mul] <;>
    by_cases hkd : d = k <;> by_cases hke : e = k <;>
      simp_all

lemma set_digit_loop_comm (d e : Nat) (hd : d < 8) (he : e < 8) (hne : d ≠ e)
    (m₁ m₂ : Nat) (planes : List Nat) :
    set_digit_loop (1 <<< d) m₁ (set_digit_loop (1 <<< e) m₂ planes) =
      set_digit_loop (1 <<< e) m₂ (set_digit_loop (1 <<< d) m₁ planes) := by
  induction planes generalizing m₁ m₂ with
  | nil => simp [set_digit_loop]
  | cons p rest ih =>
    rw [set_digit_loop, set_digit_loop, set_digit_loop, set_digit_loop]
    refine List.cons_eq_cons.mpr ⟨?_, ih (m₁ >>> 1) (m₂ >>> 1)⟩
    have h := plane_op_comm p d e hd he hne (decide (m₁ &&& 1 = 1)) (decide (m₂ &&& 1 = 1))
    simpa using h

/-- C10: the logical-to-physical digit map is injective on digits 1-6; for
distinct digits `i ≠ j`, `max7219_set_digit i m` leaves every plane bit
belonging to digit `j` unchanged; and two `max7219_set_digit` calls on
distinct digits commute on the plane array. -/
theorem set_digit_digit_independence :
    (∀ i j, 1 ≤ i → i ≤ 6 → 1 ≤ j → j ≤ 6 → i ≠ j →
      digitMap.getD (i - 1) 0 ≠ digitMap.getD (j - 1) 0) ∧
    (∀ i j m planes k, 1 ≤ i → i ≤ 6 → 1 ≤ j → j ≤ 6 → i ≠ j →
      ((max7219_set_digit i m planes).getD k 0).testBit (digitMap.getD (j - 1) 0) =
        (planes.getD k 0).testBit (digitMap.getD (j - 1) 0)) ∧
    (∀ i j m₁ m₂ planes, 1 ≤ i → i ≤ 6 → 1 ≤ j → j ≤ 6 → i ≠ j →
      max7219_set_digit i m₁ (max7219_set_digit j m₂ planes) =
        max7219_set_digit j m₂ (max7219_set_digit i m₁ planes)) := by
  refine ⟨?_, ?_, ?_⟩
  · intro i j h1 h2 h3 h4 hne
    revert hne
    interval_cases i <;> interval_cases j <;> decide
  · intro i j m planes k h1 h2 h3 h4 hne
    have hfacts : digitMap.getD (j - 1) 0 < 8 ∧
        digitMap.getD (i - 1) 0 ≠ digitMap.getD (j - 1) 0 := by
      revert hne
      interval_cases i <;> interval_cases j <;> decide
    exact set_digit_loop_testBit _ _ hfacts.1 hfacts.2 m planes k
  · intro i j m₁ m₂ planes h1 h2 h3 h4 hne
    have hfacts : digitMap.getD (i - 1) 0 < 8 ∧ digitMap.getD (j - 1) 0 < 8 ∧
        digitMap.getD (i - 1) 0 ≠ digitMap.getD (j - 1) 0 := by
      revert hne
      interval_cases i <;> interval_cases j <;> decide
    exact set_digit_loop_comm _ _ hfacts.1 hfacts.2.1 hfacts.2.2 m₁ m₂ planes

/-- Witness for `set_digit_digit_independence`: digits 1 and 2, segment masks
`0xFF` and `0x3F`, the all-`0x55` plane state, segment plane 0. -/
theorem set_digit_digit_independence_witness :
    digitMap.getD 0 0 ≠ digitMap.getD 1 0 ∧
    ((max7219_set_digit 1 0xFF [0x55, 0x55, 0x55, 0x55, 0x55, 0x55, 0x55, 0x55]).getD 0 0).testBit
        (digitMap.getD 1 0) =
      (([0x55, 0x55, 0x55, 0x55, 0x55, 0x55, 0x55, 0x55] : List Nat).getD 0 0).testBit
        (digitMap.getD 1 0) ∧
    max7219_set_digit 1 0xFF (max7219_set_digit 2 0x3F [0x55, 0x55, 0x55, 0x55, 0x55, 0x55, 0x55, 0x55]) =
      max7219_set_digit 2 0x3F (max7219_set_digit 1 0xFF [0x55, 0x55, 0x55, 0x55, 0x55, 0x55, 0x55, 0x55]) :=
  ⟨set_digit_digit_independence.1 1 2 (by decide) (by decide) (by decide) (by decide) (by decide),
   set_digit_digit_independence.2.1 1 2 0xFF [0x55, 0x55, 0x55, 0x55, 0x55, 0x55, 0x55, 0x55] 0
     (by decide) (by decide) (by decide) (by decide) (by decide),
   set_digit_digit_independence.2.2 1 2 0xFF 0x3F [0x55, 0x55, 0x55, 0x55, 0x55, 0x55, 0x55, 0x55]
     (by decide) (by decide) (by decide) (by decide) (by decide)⟩

lemma sum_set_add (l : List Nat) (i a : Nat) (h : i < l.length) :
    (l.set i a).sum + l.getD i 0 = l.sum + a := by
  induction l generalizing i with
  | nil => simp at h
  | cons x xs ih =>
    cases i with
    | zero => simp [List.sum_cons]; omega
    | succ i =>
      have := ih i (by simpa using h)
      simp only [List.set, List.sum_cons, List.getD_cons_succ]
      omega

lemma brightRun_append (rs : List Nat) (r : Nat) :
    brightRun (rs ++ [r]) = brightStep (brightRun rs) r := by
  simp [brightRun, List.foldl_append]

lemma bright_inv1 (rs : List Nat) (h : ∀ r ∈ rs, r < 1024) :
    (brightRun rs).buf.length = 16 ∧ (∀ x ∈ (brightRun rs).buf, x < 1024) ∧
      (brightRun rs).wi < 16 ∧ (brightRun rs).total = (brightRun rs).buf.sum := by
  induction rs using List.reverseRecOn with
  | nil =>
    refine ⟨rfl, ?_, by decide, rfl⟩
    intro x hx
    simp [brightRun, initBright] at hx
    omega
  | append_singleton rs r ih =>
    have hrs : ∀ x ∈ rs, x < 1024 := fun x hx => h x (by simp [hx])
    have hr : r < 1024 := h r (by simp)
    obtain ⟨hlen, hlt, hwi, htot⟩ := ih hrs
    rw [brightRun_append]
    have hwi' : (brightRun rs).wi < (brightRun rs).buf.length := by omega
    have hmem : (brightRun rs).buf.getD (brightRun rs).wi 0 ∈ (brightRun rs).buf := by
      rw [List.getD_eq_getElem (brightRun rs).buf 0 hwi']
      exact List.getElem_mem hwi'
    have hle : (brightRun rs).buf.getD (brightRun rs).wi 0 ≤ (brightRun rs).buf.sum :=
      List.single_le_sum (fun x _ => Nat.zero_le x) _ hmem
    have hbound : (brightRun rs).buf.sum ≤ 16 * 1023 := by
      have := List.sum_le_card_nsmul (brightRun rs).buf 1023
        (fun x hx => by have := hlt x hx; omega)
      simpa [hlen] using this
    have hset := sum_set_add (brightRun rs).buf (brightRun rs).wi r hwi'
    refine ⟨by simp [brightStep, hlen], ?_, by simp [brightStep]; omega, ?_⟩
    · intro x hx
      simp only [brightStep] at hx
      rcases List.mem_or_eq_of_mem_set hx with hx' | hx'
      · exact hlt x hx'
      · omega
    · simp only [brightStep]
      omega

lemma bright_pos (rs : List Nat) (h : ∀ r ∈ rs, r < 1024) :
    (brightRun rs).wi = rs.length % 16 ∧
    (∀ j, j < 16 → (brightRun rs).buf.getD j 0 =
      (List.replicate 16 0 ++ rs).getD (rs.length + ((j + 16 - rs.length % 16) % 16)) 0) ∧
    (brightRun rs).total = (brightWindow rs).sum := by
  induction rs using List.reverseRecOn with
  | nil =>
    refine ⟨rfl, ?_, by decide⟩
    intro j hj
    simp only [List.length_nil, List.append_nil]
    have hidx : 0 + ((j + 16 - 0 % 16) % 16) = j := by omega
    rw [hidx]
    simp [brightRun, initBright, List.getD, List.getElem?_replicate, hj]
  | append_singleton rs r ih =>
    have hrs : ∀ x ∈ rs, x < 1024 := fun x hx => h x (by simp [hx])
    have hr : r < 1024 := h r (by simp)
    obtain ⟨hwi, hslots, htotal⟩ := ih hrs
    obtain ⟨hlen, hlt, hwilt, htot⟩ := bright_inv1 rs hrs
    have hELen : (List.replicate 16 0 ++ rs).length = 16 + rs.length := by
      rw [List.length_append, List.length_replicate]
    have hALen : (rs ++ [r]).length = rs.length + 1 := by
      rw [List.length_append, List.length_cons, List.length_nil]
    have hAssoc : List.replicate 16 0 ++ (rs ++ [r]) =
        (List.replicate 16 0 ++ rs) ++ [r] := by simp
    have hwltlen : (brightRun rs).wi < (brightRun rs).buf.length := by omega
    rw [brightRun_append]
    refine ⟨?_, ?_, ?_⟩
    · simp only [brightStep, hwi, hALen]
      omega
    · intro j hj
      simp only [brightStep, hAssoc]
      by_cases hjm : j = rs.length % 16
      · have hget : ((brightRun rs).buf.set (brightRun rs).wi r).getD j 0 = r := by
          rw [hjm, ← hwi]
          simp [List.getD, List.getElem?_set_self, hwltlen]
        have hidx : (rs ++ [r]).length +
            ((j + 16 - (rs ++ [r]).length % 16) % 16) = rs.length + 16 := by
          rw [hALen]
          omega
        have hgr : ((List.replicate 16 0 ++ rs) ++ [r]).getD (rs.length + 16) 0 =
            ([r] : List Nat).getD (rs.length + 16 - (List.replicate 16 0 ++ rs).length) 0 :=
          List.getD_append_right _ _ _ _ (by rw [hELen]; omega)
        have h0 : rs.length + 16 - (List.replicate 16 0 ++ rs).length = 0 := by
          rw [hELen]
          omega
        rw [hget, hidx, hgr, h0]
        rfl
      · have hne : (brightRun rs).wi ≠ j := by rw [hwi]; exact fun hx => hjm hx.symm
        have hget : ((brightRun rs).buf.set (brightRun rs).wi r).getD j 0 =
            (brightRun rs).buf.getD j 0 := by
          simp [List.getD, List.getElem?_set_ne hne]
        have hidx : (rs ++ [r]).length + ((j + 16 - (rs ++ [r]).length % 16) % 16) =
            rs.length + ((j + 16 - rs.length % 16) % 16) := by
          rw [hALen]
          omega
        have hgl : ((List.replicate 16 0 ++ rs) ++ [r]).getD
            (rs.length + ((j + 16 - rs.length % 16) % 16)) 0 =
            (List.replicate 16 0 ++ rs).getD
              (rs.length + ((j + 16 - rs.length % 16) % 16)) 0 :=
          List.getD_append _ _ _ _ (by rw [hELen]; omega)
        rw [hget, hidx, hgl, hslots j hj]
    · have hnlt : rs.length < (List.replicate 16 0 ++ rs).length := by omega
      have hdropc := List.drop_eq_getElem_cons hnlt
      have hgetD : (List.replicate 16 0 ++ rs).getD rs.length 0 =
          (List.replicate 16 0 ++ rs)[rs.length] :=
        List.getD_eq_getElem _ 0 hnlt
      have hbufwi : (brightRun rs).buf.getD (brightRun rs).wi 0 =
          (List.replicate 16 0 ++ rs).getD rs.length 0 := by
        rw [hwi]
        have h16 : rs.length % 16 < 16 := by omega
        have hidx : rs.length + ((rs.length % 16 + 16 - rs.length % 16) % 16) = rs.length := by
          omega
        rw [hslots (rs.length % 16) h16, hidx]
      have hwnd : brightWindow (rs ++ [r]) =
          (List.replicate 16 0 ++ rs).drop (rs.length + 1) ++ [r] := by
        rw [brightWindow, hAssoc, List.drop_append_eq_append_drop]
        congr 1
        · rw [hALen]
        · have h0 : (rs ++ [r]).length - (List.replicate 16 0 ++ rs).length = 0 := by
            rw [hALen, hELen]
            omega
          rw [h0]
          rfl
      have hsum : (brightWindow rs).sum =
          (List.replicate 16 0 ++ rs).getD rs.length 0 +
            ((List.replicate 16 0 ++ rs).drop (rs.length + 1)).sum := by
        rw [brightWindow, hdropc, hgetD]
        simp
      have hwbound : (brightWindow rs).sum ≤ 16 * 1023 := by
        have hwlen : (brightWindow rs).length = 16 := by
          rw [brightWindow, List.length_drop, hELen]
          omega
        have := List.sum_le_card_nsmul (brightWindow rs) 1023 (fun x hx => by
          have hx' : x ∈ List.replicate 16 0 ++ rs := List.mem_of_mem_drop hx
          rcases List.mem_append.mp hx' with hx'' | hx''
          · have := List.eq_of_mem_replicate hx''
            omega
          · have := hrs x hx''
            omega)
        simpa [hwlen] using this
      simp only [brightStep, hwnd, List.sum_append, List.sum_cons, List.sum_nil]
      rw [hbufwi] at *
      omega

lemma bright_total_last16 (rs : List Nat) (h : ∀ r ∈ rs, r < 1024)
    (hge : 16 ≤ rs.length) :
    (brightRun rs).total = (rs.drop (rs.length - 16)).sum := by
  have htotal := (bright_pos rs h).2.2
  rw [htotal, brightWindow, List.drop_append_eq_append_drop]
  have h1 : (List.replicate (16 : Nat) (0 : Nat)).drop rs.length = [] := by
    apply List.drop_eq_nil_of_le
    simpa using hge
  rw [h1]
  simp

/-- C7: the brightness controller's running total always equals the sum of
the 16 stored window samples (an invariant of every step from the all-zero
initial state); after exactly 16 samples the computed average is
`floor(sum / 16)`; after more than 16 samples the total depends only on the
most recent 16 readings (older samples are fully evicted); and each step
issues exactly one intensity command whose value is the window average
divided by 64. -/
theorem brightness_window_invariant :
    (∀ rs, (∀ r ∈ rs, r < 1024) →
      (brightRun rs).total = (brightRun rs).buf.sum) ∧
    (∀ rs, (∀ r ∈ rs, r < 1024) → rs.length = 16 →
      (brightRun rs).total / 16 = rs.sum / 16) ∧
    (∀ rs, (∀ r ∈ rs, r < 1024) → 16 ≤ rs.length →
      (brightRun rs).total = (rs.drop (rs.length - 16)).sum) ∧
    (∀ rs r, (∀ x ∈ rs, x < 1024) → r < 1024 →
      brightCmd (brightRun rs) r =
        (0x0A, ((brightRun (rs ++ [r])).buf.sum / 16) / 64)) := by
  refine ⟨?_, ?_, ?_, ?_⟩
  · intro rs h
    exact (bright_inv1 rs h).2.2.2
  · intro rs h hlen
    rw [bright_total_last16 rs h (by omega), hlen]
    simp
  · intro rs h hge
    exact bright_total_last16 rs h hge
  · intro rs r h hr
    have hall : ∀ x ∈ rs ++ [r], x < 1024 := by
      intro x hx
      rcases List.mem_append.mp hx with hx' | hx'
      · exact h x hx'
      · simp at hx'
        omega
    rw [brightCmd, ← brightRun_append, (bright_inv1 (rs ++ [r]) hall).2.2.2]

/-- Witness for `brightness_window_invariant` at concrete sample lists. -/
theorem brightness_window_invariant_witness :
    (brightRun [100, 200]).total = (brightRun [100, 200]).buf.sum ∧
    (brightRun (List.replicate 16 3)).total / 16 = (List.replicate 16 3).sum / 16 ∧
    (brightRun (List.replicate 17 2)).total =
      ((List.replicate 17 2).drop ((List.replicate 17 2).length - 16)).sum ∧
    brightCmd (brightRun [1]) 2 = (0x0A, ((brightRun ([1] ++ [2])).buf.sum / 16) / 64) :=
  ⟨brightness_window_invariant.1 [100, 200] (by decide),
   brightness_window_invariant.2.1 (List.replicate 16 3) (by decide) (by decide),
   brightness_window_invariant.2.2.1 (List.replicate 17 2) (by decide) (by decide),
   brightness_window_invariant.2.2.2 [1] 2 (by decide) (by decide)⟩

lemma take_succ_getD (l : List Nat) (p : Nat) (h : p < l.length) :
    l.take (p + 1) = l.take p ++ [l.getD p 0] := by
  induction l generalizing p with
  | nil => simp at h
  | cons x xs ih =>
    cases p with
    | zero => simp
    | succ p =>
      simp only [List.take_succ_cons, List.getD_cons_succ]
      rw [ih p (by simpa using h)]
      rfl

lemma runQueue_spec (cap : Nat) (hcap : 0 < cap) (ops : List (Option Nat)) :
    ∀ (q : CircBuf) (out va_done : List Nat) (p : Nat),
      q.buf.length = cap →
      va_done.length + (appends ops).length ≤ cap →
      p ≤ va_done.length →
      q.writeIdx = va_done.length % cap →
      q.readIdx = p % cap →
      (∀ n, n ≤ ops.length →
        p + pops (ops.take n) ≤ va_done.length + (appends (ops.take n)).length) →
      (∀ i, p ≤ i → i < va_done.length → q.buf.getD i 0 = va_done.getD i 0) →
      out = va_done.take p →
      (runQueue q out ops).2 = (va_done ++ appends ops).take (p + pops ops) := by
  induction ops with
  | nil =>
    intro q out va_done p _ _ hpa _ _ _ _ hout
    simp only [runQueue, appends, pops, List.filterMap_nil, List.filter_nil,
      List.length_nil, List.append_nil, Nat.add_zero]
    rw [hout]
  | cons o ops ih =>
    intro q out va_done p hblen htotal hpa hw hr hpre hslots hout
    match o with
    | some b =>
      have happ : appends (some b :: ops) = b :: appends ops := by simp [appends]
      have hpop : pops (some b :: ops) = pops ops := by simp [pops, List.filter]
      have hAlt : va_done.length < cap := by
        rw [happ] at htotal
        simp at htotal
        omega
      have hstep : runQueue q out (some b :: ops) = runQueue (circbuf_append q b) out ops := rfl
      have hgoal := ih (circbuf_append q b) out (va_done ++ [b]) p
        (by simp [circbuf_append, hblen])
        (by rw [happ] at htotal; simp at htotal ⊢; omega)
        (by simp; omega)
        (by
          simp only [circbuf_append, hblen, hw, List.length_append, List.length_cons,
            List.length_nil]
          rw [Nat.mod_eq_of_lt hAlt])
        (by simp [circbuf_append, hr])
        (by
          intro n hn
          have h2 := hpre (n + 1) (by simp; omega)
          simp only [List.take_succ_cons] at h2
          have hp2 : pops (some b :: ops.take n) = pops (ops.take n) := by
            simp [pops, List.filter]
          have ha2 : appends (some b :: ops.take n) = b :: appends (ops.take n) := by
            simp [appends]
          rw [hp2, ha2] at h2
          simp at h2 ⊢
          omega)
        (by
          intro i hpi hilt
          simp only [circbuf_append, hw, Nat.mod_eq_of_lt hAlt]
          by_cases hieq : i = va_done.length
          · subst hieq
            have h1 : (q.buf.set va_done.length b).getD va_done.length 0 = b := by
              simp [List.getD, List.getElem?_set_self, hblen ▸ hAlt]
            have h2 : (va_done ++ [b]).getD va_done.length 0 = b := by
              rw [List.getD_append_right _ _ _ _ (Nat.le_refl _)]
              simp
            rw [h1, h2]
          · have hlt' : i < va_done.length := by
              simp at hilt
              omega
            have hne : va_done.length ≠ i := fun hx => hieq hx.symm
            have h1 : (q.buf.set va_done.length b).getD i 0 = q.buf.getD i 0 := by
              simp [List.getD, List.getElem?_set_ne hne]
            rw [h1, hslots i hpi hlt', List.getD_append _ _ _ _ hlt'])
        (by
          rw [hout, List.take_append_eq_append_take]
          have h0 : p - va_done.length = 0 := by omega
          rw [h0]
          simp)
      rw [hstep, hgoal, happ, hpop, ← List.append_cons]
    | none =>
      have happ : appends (none :: ops) = appends ops := by simp [appends]
      have hpop : pops (none :: ops) = pops ops + 1 := by simp [pops, List.filter]
      have hplt : p < va_done.length := by
        have h1 := hpre 1 (by simp)
        simp only [List.take_succ_cons, List.take_zero] at h1
        have hp1 : pops [none] = 1 := by decide
        have ha1 : appends ([none] : List (Option Nat)) = [] := by decide
        rw [hp1, ha1] at h1
        simpa using h1
      have hpcap : p < cap := by
        have : va_done.length ≤ cap := by omega
        omega
      have hpopval : (circbuf_pop q).1 = va_done.getD p 0 := by
        simp only [circbuf_pop, hr, hblen, Nat.mod_eq_of_lt hpcap]
        exact hslots p (Nat.le_refl p) hplt
      have hstep : runQueue q out (none :: ops) =
          runQueue (circbuf_pop q).2 (out ++ [(circbuf_pop q).1]) ops := rfl
      have hgoal := ih (circbuf_pop q).2 (out ++ [(circbuf_pop q).1]) va_done (p + 1)
        (by simp [circbuf_pop, hblen])
        (by rw [happ] at htotal; exact htotal)
        (by omega)
        (by simp [circbuf_pop, hw])
        (by
          simp only [circbuf_pop, hblen, hr]
          rw [Nat.mod_eq_of_lt hpcap])
        (by
          intro n hn
          have h2 := hpre (n + 1) (by simp; omega)
          simp only [List.take_succ_cons] at h2
          have hp2 : pops (none :: ops.take n) = pops (ops.take n) + 1 := by
            simp [pops, List.filter]
          have ha2 : appends (none :: ops.take n) = appends (ops.take n) := by
            simp [appends]
          rw [hp2, ha2] at h2
          omega)
        (by
          intro i hpi hilt
          exact hslots i (by omega) hilt)
        (by rw [hout, hpopval, ← take_succ_getD va_done p hplt])
      rw [hstep, hgoal, happ, hpop]
      have harr : p + (pops ops + 1) = p + 1 + pops ops := by omega
      rw [harr]

/-- C9: in every well-formed interleaving of appends (receive interrupt) and
pops (main context) with `M ≤ N ≤ capacity`, the queue pops bytes in exactly
append order; the emptiness predicate is true iff the write index equals the
read index; and `uart_read_byte` returns nothing while the queue is empty
(it keeps spinning) and otherwise pops the oldest unread byte. -/
theorem queue_fifo_correct :
    (∀ cap ops, 0 < cap → wfOps cap ops →
      (runQueue (CircBuf.init cap) [] ops).2 = (appends ops).take (pops ops)) ∧
    (∀ q : CircBuf, circbuf_is_empty q = true ↔ q.writeIdx = q.readIdx) ∧
    (∀ q : CircBuf, (circbuf_is_empty q = true → uart_read_byte q = none) ∧
      (circbuf_is_empty q = false → uart_read_byte q = some (circbuf_pop q))) := by
  refine ⟨?_, ?_, ?_⟩
  · intro cap ops hcap hwf
    obtain ⟨htot, hpre⟩ := hwf
    have h := runQueue_spec cap hcap ops (CircBuf.init cap) [] [] 0
      (by simp [CircBuf.init])
      (by simpa using htot)
      (by simp)
      (by simp [CircBuf.init])
      (by simp [CircBuf.init])
      (by simpa using hpre)
      (by simp)
      (by simp)
    simpa using h
  · intro q
    simp [circbuf_is_empty]
  · intro q
    constructor
    · intro h
      simp [uart_read_byte, h]
    · intro h
      simp [uart_read_byte, h]

/-- Witness for `queue_fifo_correct`: capacity 4 and the operation sequence
append 1, append 2, pop, append 3, pop — the pops return `[1, 2]`. -/
theorem queue_fifo_correct_witness :
    (runQueue (CircBuf.init 4) [] [some 1, some 2, none, some 3, none]).2 =
      (appends [some 1, some 2, none, some 3, none]).take
        (pops [some 1, some 2, none, some 3, none]) ∧
    (circbuf_is_empty (CircBuf.init 4) = true → uart_read_byte (CircBuf.init 4) = none) :=
  ⟨queue_fifo_correct.1 4 [some 1, some 2, none, some 3, none] (by decide)
      ⟨by decide, by decide⟩,
   (queue_fifo_correct.2.2 (CircBuf.init 4)).1⟩

lemma dropWhile_irq_replicate (K a : Nat) (rest : List Ev) :
    (List.replicate K (Ev.irq a) ++ rest).dropWhile (fun e => !e.isMain) =
      rest.dropWhile (fun e => !e.isMain) := by
  induction K with
  | zero => simp
  | succ K ih => simpa [List.replicate_succ, List.dropWhile, Ev.isMain] using ih

/-- C1 (amended): the `display_update` flush is protected — in every reachable
interleaving no brightness-interrupt bus command falls strictly between two of
its flush commands, because interrupts are suppressed around the command
sequence and re-enabled unconditionally afterward. -/
theorem display_update_flush_exclusive :
    (∀ planes ks,
      hasIrqBetweenMains (runActs (displayUpdateActs planes) ks true) = false) ∧
    (∀ planes, finalEn (displayUpdateActs planes) true = true) := by
  constructor
  · intro planes ks
    have htr : runActs (displayUpdateActs planes) ks true =
        List.replicate (ks.headD 0) (Ev.irq 0x0A) ++
          [Ev.main 1 (planes.getD 0 0), Ev.main 2 (planes.getD 1 0),
           Ev.main 3 (planes.getD 2 0), Ev.main 4 (planes.getD 3 0),
           Ev.main 5 (planes.getD 4 0), Ev.main 6 (planes.getD 5 0),
           Ev.main 7 (planes.getD 6 0), Ev.main 8 (planes.getD 7 0)] := by
      simp [displayUpdateActs, writeDigitsActs, kNumSegments, runActs, evOf, nextEn,
        List.range_succ]
    rw [hasIrqBetweenMains, htr, dropWhile_irq_replicate]
    simp [List.dropWhile, Ev.isMain, irqThenMain]
  · intro planes
    simp [finalEn, displayUpdateActs, writeDigitsActs, kNumSegments, List.range_succ,
      nextEn]

/-- C1 counterexample: the flush issued by `display_no_signal` runs with
interrupts enabled, and there is a reachable interleaving (one ADC
conversion-complete interrupt between its first and second plane commands) in
which the brightness path's intensity command lands in the middle of the
flush's command sequence. -/
theorem display_no_signal_flush_interruptible :
    hasIrqBetweenMains
      (runActs (displayNoSignalActs [0, 0, 0, 0, 0, 0, 0, 0]) [0, 1] true) = true := by
  decide

end Clock
